import Mathlib

/-!
Verification of the derived-state computations of the portofinanca
personal-finance application.  The definitions below are a shallow
embedding of the TypeScript source (src/App.tsx and the insight
service module): JavaScript numbers are modelled as exact rationals,
calendar dates as explicit year/month/day records (month 0-based, as
JavaScript getMonth), JavaScript objects used as ordered string-keyed
records as association lists with first-insertion key order, and
Array.prototype.sort as the stable insertion sort of Mathlib.
-/

namespace PortoFinanca

/-- The two transaction types of types.ts (TransactionType). -/
inductive TransactionType where
  | income
  | expense
deriving DecidableEq, Repr

/-- The closed category enumeration of types.ts (Category). -/
inductive Category where
  | rental
  | cleaning
  | maintenance
  | utilities
  | taxes
  | others
deriving DecidableEq, Repr

/-- A calendar date as the application uses it: the date strings of the
form YYYY-MM-DD are parsed with new Date and consumed through
getFullYear, getMonth (0-based) and getTime.  We embed the parsed
value directly. -/
structure JSDate where
  year : Nat
  month : Nat
  day : Nat
deriving DecidableEq, Repr

/-- Millisecond timestamps of distinct calendar dates compare like this
monotone encoding; it is injective on valid dates (month < 12, day < 32). -/
def JSDate.getTime (d : JSDate) : Nat :=
  (d.year * 12 + d.month) * 32 + d.day

/-- The persisted Transaction record of types.ts. -/
structure Transaction where
  id : String
  type : TransactionType
  category : Category
  amount : ℚ
  date : JSDate
  description : String
  guestName : Option String
  isPaid : Bool
deriving DecidableEq, Repr

/-- The period selector (type TimeRange in App.tsx, line 45). -/
inductive TimeRange where
  | monthly
  | semiannual
  | annual
  | all
deriving DecidableEq, Repr

/-- The filter predicate of filteredTransactions (App.tsx lines 80-97):
same year and month for monthly, same year and half-year bucket for
semiannual, same year for annual, everything for all. -/
def inRange (range : TimeRange) (now : JSDate) (t : Transaction) : Bool :=
  match range with
  | .all => true
  | .monthly => t.date.year == now.year && t.date.month == now.month
  | .semiannual =>
      t.date.year == now.year &&
        (if t.date.month < 6 then 0 else 1) == (if now.month < 6 then (0 : Nat) else 1)
  | .annual => t.date.year == now.year

/-- The descending-by-date comparator of App.tsx line 98
(sort by new Date(b.date).getTime() - new Date(a.date).getTime()). -/
def dateDesc (a b : Transaction) : Prop :=
  b.date.getTime ≤ a.date.getTime

instance : DecidableRel dateDesc := fun a b => Nat.decLe _ _

instance : IsTotal Transaction dateDesc :=
  ⟨fun a b => Nat.le_total b.date.getTime a.date.getTime⟩

instance : IsTrans Transaction dateDesc :=
  ⟨fun _ _ _ h1 h2 => Nat.le_trans h2 h1⟩

/-- The ascending-by-date comparator used by balanceEvolutionData
(App.tsx line 129). -/
def dateAsc (a b : Transaction) : Prop :=
  a.date.getTime ≤ b.date.getTime

instance : DecidableRel dateAsc := fun a b => Nat.decLe _ _

instance : IsTotal Transaction dateAsc :=
  ⟨fun a b => Nat.le_total a.date.getTime b.date.getTime⟩

instance : IsTrans Transaction dateAsc :=
  ⟨fun _ _ _ h1 h2 => Nat.le_trans h1 h2⟩

/-- filteredTransactions (App.tsx lines 78-99): filter by the period
predicate, then sort descending by date (Array.prototype.sort is
stable; we model it with the stable insertion sort). -/
def filteredTransactions (range : TimeRange) (now : JSDate) (txs : List Transaction) :
    List Transaction :=
  (txs.filter (inRange range now)).insertionSort dateDesc

/-- The summary record computed in App.tsx lines 101-113. -/
structure Summary where
  income : ℚ
  expenses : ℚ
  balance : ℚ
  margin : ℚ
deriving DecidableEq, Repr

/-- summary (App.tsx lines 101-113): reduce the income-typed and the
expense-typed transactions of the filtered set, take the difference,
and guard the margin against a zero income. -/
def summary (l : List Transaction) : Summary :=
  let income := (l.filter (fun t => t.type == TransactionType.income)).foldl
    (fun acc t => acc + t.amount) 0
  let expenses := (l.filter (fun t => t.type == TransactionType.expense)).foldl
    (fun acc t => acc + t.amount) 0
  let balance := income - expenses
  let margin := if income > 0 then balance / income * 100 else 0
  ⟨income, expenses, balance, margin⟩

/-- The form state handed to handleAddTransaction (App.tsx lines 66-71).
The amount field holds the value of a number input: the empty field (a
falsy string, rejected by the first disjunct of the guard) is modelled
as none, and a nonempty number-input value together with its parseFloat
reading is modelled as some q. -/
structure TxForm where
  amount : Option ℚ
  type : TransactionType
  category : Category
  date : JSDate
  description : String
  guestName : String
deriving DecidableEq, Repr

/-- handleAddTransaction (App.tsx lines 167-185): reject when the amount
is missing or not positive, otherwise prepend a new transaction built
from the form (guestName only for income, isPaid always true). -/
def handleAddTransaction (f : TxForm) (newId : String) (prev : List Transaction) :
    List Transaction :=
  match f.amount with
  | none => prev
  | some q =>
      if q ≤ 0 then prev
      else
        { id := newId, type := f.type, category := f.category, amount := q,
          date := f.date, description := f.description,
          guestName := if f.type == TransactionType.income then some f.guestName else none,
          isPaid := true } :: prev

/-- deleteTransaction (App.tsx lines 194-198), after the user confirms:
keep exactly the transactions whose id differs from the given one. -/
def deleteTransaction (id : String) (prev : List Transaction) : List Transaction :=
  prev.filter (fun t => t.id != id)

/-- Character-list test: is the first list an initial segment of the second. -/
def isPrefAux : List Char → List Char → Bool
  | [], _ => true
  | _ :: _, [] => false
  | a :: as, b :: bs => a == b && isPrefAux as bs

/-- Character-list test: does pat occur as a contiguous segment. -/
def hasSub (pat : List Char) : List Char → Bool
  | [] => pat.isEmpty
  | c :: rest => isPrefAux pat (c :: rest) || hasSub pat rest

/-- The includes method of JavaScript strings: substring containment. -/
def strIncludes (s pat : String) : Bool :=
  hasSub pat.toList s.toList

/-- A caught JavaScript error value as the service module consumes it:
only its message property is read, and that property can be undefined. -/
structure JSError where
  message : Option String
deriving DecidableEq, Repr

/-- The test error.message?.includes(429) of the service module, line 34:
an undefined message is falsy, otherwise substring containment. -/
def errorHas429 (e : JSError) : Bool :=
  match e.message with
  | none => false
  | some s => strIncludes s "429"

/-- The expression error.message || Desconhecido of the service module,
line 38: an undefined or empty (falsy) message falls back to the fixed
word. -/
def errorDescription (e : JSError) : String :=
  match e.message with
  | none => "Desconhecido"
  | some s => if s = "" then "Desconhecido" else s

/-- The outcome of the awaited generateContent call: either the response
text or a thrown error. -/
inductive ServiceOutcome where
  | ok (text : String)
  | failed (e : JSError)
deriving DecidableEq, Repr

/-- What getFinancialInsights produces: the returned text, together with
whether the external service was contacted. -/
structure InsightOutcome where
  text : String
  networkCalled : Bool
deriving DecidableEq, Repr

/-- The fixed insufficient-data message of the service module, line 7. -/
def insufficientDataMsg : String :=
  "Ainda não há dados suficientes neste período para uma análise detalhada. Adicione receitas e despesas para começar!"

/-- The fixed overloaded-service message of the service module, line 35. -/
def overloadedMsg : String :=
  "Muitas solicitações simultâneas. O consultor está sobrecarregado (Limite de Cota Gratuita). Por favor, aguarde 1 minuto e tente novamente."

/-- The generic failure message of the service module, line 38, embedding
the error description. -/
def unavailableMsg (e : JSError) : String :=
  "O consultor virtual está indisponível no momento. Erro: " ++ errorDescription e

/-- getFinancialInsights (service module lines 6-40).  The outcome of the
network call is a parameter, so the model is total over every behaviour
of the external service; the period string only feeds the prompt. -/
def getFinancialInsights (transactions : List Transaction) (period : String)
    (svc : ServiceOutcome) : InsightOutcome :=
  if transactions.length = 0 then ⟨insufficientDataMsg, false⟩
  else
    match svc with
    | .ok t => ⟨t, true⟩
    | .failed e => ⟨if errorHas429 e then overloadedMsg else unavailableMsg e, true⟩

/-- The JavaScript object update rec[c] = (rec[c] || 0) + a on a keyed
record, modelled as an association list in key-insertion order: an
existing key is updated in place, a new key is appended at the end,
matching the enumeration order of Object.entries. -/
def recordAdd (rec : List (Category × ℚ)) (c : Category) (a : ℚ) : List (Category × ℚ) :=
  match rec with
  | [] => [(c, a)]
  | (c', v) :: rest => if c' = c then (c', v + a) :: rest else (c', v) :: recordAdd rest c a

/-- The grouping loop shared by topExpenses (App.tsx lines 116-120) and
chartData (lines 141-144): sum the expense amounts per category. -/
def groupExpensesByCategory (l : List Transaction) : List (Category × ℚ) :=
  (l.filter (fun t => t.type == TransactionType.expense)).foldl
    (fun rec t => recordAdd rec t.category t.amount) []

/-- An entry of the category breakdown built in App.tsx line 122. -/
structure BreakdownEntry where
  name : Category
  value : ℚ
  percent : ℚ
deriving DecidableEq, Repr

/-- The descending-by-value comparator of App.tsx line 123
(sort by b.value - a.value). -/
def valueDesc (a b : BreakdownEntry) : Prop :=
  b.value ≤ a.value

instance : DecidableRel valueDesc :=
  fun a b => inferInstanceAs (Decidable (b.value ≤ a.value))

instance : IsTotal BreakdownEntry valueDesc :=
  ⟨fun a b => le_total b.value a.value⟩

instance : IsTrans BreakdownEntry valueDesc :=
  ⟨fun _ _ _ h1 h2 => le_trans h2 h1⟩

/-- The full category breakdown (the topExpenses chain of App.tsx lines
121-123 before the truncation): per-category sums with their percentage
of total expenses (0 when total expenses is not positive), sorted
descending by summed value. -/
def categoryBreakdown (l : List Transaction) : List BreakdownEntry :=
  ((groupExpensesByCategory l).map
    (fun p => ⟨p.1, p.2,
      if (summary l).expenses > 0 then p.2 / (summary l).expenses * 100 else 0⟩)).insertionSort
    valueDesc

/-- topExpenses (App.tsx lines 115-125): the sorted breakdown truncated
by slice(0, 3). -/
def topExpenses (l : List Transaction) : List BreakdownEntry :=
  (categoryBreakdown l).take 3

/-- An entry of chartData (App.tsx line 145). -/
structure ChartEntry where
  name : Category
  value : ℚ
deriving DecidableEq, Repr

/-- The descending-by-value comparator of App.tsx line 145. -/
def chartValueDesc (a b : ChartEntry) : Prop :=
  b.value ≤ a.value

instance : DecidableRel chartValueDesc :=
  fun a b => inferInstanceAs (Decidable (b.value ≤ a.value))

instance : IsTotal ChartEntry chartValueDesc :=
  ⟨fun a b => le_total b.value a.value⟩

instance : IsTrans ChartEntry chartValueDesc :=
  ⟨fun _ _ _ h1 h2 => le_trans h2 h1⟩

/-- chartData (App.tsx lines 140-146): the same grouping without the
percentage, sorted descending by summed value. -/
def chartData (l : List Transaction) : List ChartEntry :=
  ((groupExpensesByCategory l).map (fun p => ⟨p.1, p.2⟩)).insertionSort chartValueDesc

/-- The signed amount of App.tsx line 133: income counts positively,
expense negatively. -/
def signed (t : Transaction) : ℚ :=
  if t.type == TransactionType.income then t.amount else -t.amount

/-- Two-digit zero padding, as the 2-digit options of toLocaleDateString
produce. -/
def pad2 (n : Nat) : String :=
  if n < 10 then "0" ++ toString n else toString n

/-- The per-day key of App.tsx line 132: toLocaleDateString pt-BR with
2-digit day and month renders dd/mm, with no year component (getMonth is
0-based, the rendered month is 1-based). -/
def dateLabel (d : JSDate) : String :=
  pad2 d.day ++ "/" ++ pad2 (d.month + 1)

/-- The JavaScript object assignment points[k] = v: overwrite the value
of an existing key in place, append a new key at the end, matching the
enumeration order of Object.entries. -/
def recordSet (rec : List (String × ℚ)) (k : String) (v : ℚ) : List (String × ℚ) :=
  match rec with
  | [] => [(k, v)]
  | (k', v') :: rest => if k' = k then (k', v) :: rest else (k', v') :: recordSet rest k v

/-- The loop of balanceEvolutionData (App.tsx lines 128-136) over an
already ascending-sorted list: the state is the points record and the
running balance currentBalance. -/
def balFold (ls : List Transaction) : List (String × ℚ) × ℚ :=
  ls.foldl
    (fun st t => (recordSet st.1 (dateLabel t.date) (st.2 + signed t), st.2 + signed t))
    ([], 0)

/-- balanceEvolutionData (App.tsx lines 127-138): sort the filtered set
ascending by date, fold the running signed balance assigning it to the
per-day key, and return the entries of the points record. -/
def balancePoints (l : List Transaction) : List (String × ℚ) :=
  (balFold (l.insertionSort dateAsc)).1

/-- Reference construction: first occurrences of a list of dates, in
order of first appearance. -/
def dedupFirst (l : List JSDate) : List JSDate :=
  l.foldl (fun acc d => if d ∈ acc then acc else acc ++ [d]) []

/-- Reference construction: the signed total of a transaction list. -/
def totalSigned (l : List Transaction) : ℚ :=
  (l.map signed).sum

/-- Reference construction, from the specification of the balance
series: the running sum of signed amounts over the transactions dated
up to and including the given date. -/
def runningAt (l : List Transaction) (d : JSDate) : ℚ :=
  ((l.filter (fun t => decide (t.date.getTime ≤ d.getTime))).map signed).sum

/-- The dates of the filtered set in ascending chronological order. -/
def sortedDates (l : List Transaction) : List JSDate :=
  (l.insertionSort dateAsc).map (·.date)

/-- Reference series, from the specification of the balance series: one
point per distinct date in chronological order, each carrying the
cumulative balance up to and including that date. -/
def seriesOf (ls : List Transaction) : List (String × ℚ) :=
  (dedupFirst (ls.map (·.date))).map (fun d => (dateLabel d, runningAt ls d))

/-- A date of the calendar: its 0-based month below 12 and its day below
32, which makes the timestamp encoding injective. -/
def ValidDate (d : JSDate) : Prop :=
  d.month < 12 ∧ d.day < 32

instance (d : JSDate) : Decidable (ValidDate d) :=
  inferInstanceAs (Decidable (d.month < 12 ∧ d.day < 32))

/-- The useState initializer of App.tsx lines 48-51: a missing key (null)
and the falsy empty string give the empty collection, any other stored
string is handed to JSON.parse, modelled by the parse parameter whose
error value models the thrown SyntaxError. -/
def loadTransactions (parse : String → Except String (List Transaction))
    (saved : Option String) : Except String (List Transaction) :=
  match saved with
  | none => Except.ok []
  | some s => if s = "" then Except.ok [] else parse s

end PortoFinanca

namespace PortoFinanca

/-- Folding addition of a projection over a list from an arbitrary seed
is the seed plus the sum of the projections. -/
theorem foldl_add_eq_sum (f : Transaction → ℚ) (l : List Transaction) (c : ℚ) :
    l.foldl (fun acc t => acc + f t) c = c + (l.map f).sum := by
  induction l generalizing c with
  | nil => simp
  | cons t ts ih => simp [ih, add_assoc]

/-- C1: for every filtered transaction set the summary satisfies: income
is the sum of amounts of income-typed transactions, expenses the sum of
amounts of expense-typed transactions, balance = income - expenses,
margin = balance / income * 100 when income is positive and 0 when
income is 0, and on the empty set all four components are 0. -/
theorem summary_correct (l : List Transaction) :
    (summary l).income
        = ((l.filter (fun t => t.type == TransactionType.income)).map (·.amount)).sum
      ∧ (summary l).expenses
        = ((l.filter (fun t => t.type == TransactionType.expense)).map (·.amount)).sum
      ∧ (summary l).balance = (summary l).income - (summary l).expenses
      ∧ (0 < (summary l).income →
          (summary l).margin = (summary l).balance / (summary l).income * 100)
      ∧ ((summary l).income = 0 → (summary l).margin = 0)
      ∧ summary [] = ⟨0, 0, 0, 0⟩ := by
  refine ⟨?_, ?_, rfl, ?_, ?_, by norm_num [summary]⟩
  · simpa using foldl_add_eq_sum (·.amount) (l.filter (fun t => t.type == TransactionType.income)) 0
  · simpa using foldl_add_eq_sum (·.amount) (l.filter (fun t => t.type == TransactionType.expense)) 0
  · intro h
    simp only [summary]
    rw [if_pos]
    exact h
  · intro h
    simp only [summary] at h ⊢
    rw [if_neg]
    rw [h]
    exact lt_irrefl 0

/-- Witness for summary_correct at a concrete one-income input. -/
theorem summary_correct_witness :
    (summary [⟨"a", .income, .rental, 10, ⟨2024, 2, 1⟩, "", some "g", true⟩]).margin = 100 := by
  have h := summary_correct [⟨"a", .income, .rental, 10, ⟨2024, 2, 1⟩, "", some "g", true⟩]
  have hm := h.2.2.2.1 (by norm_num [summary])
  rw [hm]
  norm_num [summary, List.filter,
    show (TransactionType.income == TransactionType.expense) = false from rfl]

/-- The period predicate of the code coincides with the predicate the
specification describes for each selector. -/
theorem inRange_iff (range : TimeRange) (now : JSDate) (t : Transaction) :
    inRange range now t = true ↔
      (match range with
        | .monthly => t.date.year = now.year ∧ t.date.month = now.month
        | .semiannual => t.date.year = now.year ∧ (t.date.month < 6 ↔ now.month < 6)
        | .annual => t.date.year = now.year
        | .all => True) := by
  cases range with
  | all => simp [inRange]
  | monthly => simp [inRange]
  | annual => simp [inRange]
  | semiannual =>
      simp only [inRange, Bool.and_eq_true, beq_iff_eq]
      constructor
      · rintro ⟨hy, hs⟩
        refine ⟨hy, ?_⟩
        by_cases h1 : t.date.month < 6 <;> by_cases h2 : now.month < 6 <;>
          simp [h1, h2] at hs ⊢
      · rintro ⟨hy, hs⟩
        refine ⟨hy, ?_⟩
        by_cases h1 : t.date.month < 6 <;> by_cases h2 : now.month < 6 <;>
          simp [h1, h2] at hs ⊢

/-- C3: for every transaction collection and current date, the period
filter returns exactly the transactions satisfying the selector
predicate (monthly: same year and month; semiannual: same year and
half-year bucket; annual: same year; all: everything), ordered
descending by date. -/
theorem filteredTransactions_correct (range : TimeRange) (now : JSDate)
    (txs : List Transaction) :
    (filteredTransactions range now txs).Perm (txs.filter (inRange range now))
      ∧ List.Sorted dateDesc (filteredTransactions range now txs)
      ∧ ∀ t, t ∈ filteredTransactions range now txs ↔
          t ∈ txs ∧
            (match range with
              | .monthly => t.date.year = now.year ∧ t.date.month = now.month
              | .semiannual => t.date.year = now.year ∧ (t.date.month < 6 ↔ now.month < 6)
              | .annual => t.date.year = now.year
              | .all => True) := by
  refine ⟨List.perm_insertionSort dateDesc _, List.sorted_insertionSort dateDesc _, fun t => ?_⟩
  rw [← inRange_iff range now t]
  unfold filteredTransactions
  simp [List.mem_filter]

/-- C8: the monthly period filter is idempotent. -/
theorem filteredTransactions_monthly_idempotent (now : JSDate) (txs : List Transaction) :
    filteredTransactions .monthly now (filteredTransactions .monthly now txs)
      = filteredTransactions .monthly now txs := by
  unfold filteredTransactions
  rw [List.filter_eq_self.mpr, (List.sorted_insertionSort dateDesc _).insertionSort_eq]
  intro t ht
  exact List.of_mem_filter ((List.mem_insertionSort dateDesc).mp ht)

/-- C10: the delete operation keeps every transaction whose id differs
from the given one, in the original relative order, removes every
transaction with the given id, and is the identity when the id is
absent. -/
theorem deleteTransaction_correct (id : String) (prev : List Transaction) :
    List.Sublist (deleteTransaction id prev) prev
      ∧ (∀ t, t ∈ deleteTransaction id prev ↔ t ∈ prev ∧ t.id ≠ id)
      ∧ (∀ t, t.id = id → (deleteTransaction id prev).count t = 0)
      ∧ (∀ t, t.id ≠ id → (deleteTransaction id prev).count t = prev.count t)
      ∧ ((∀ t ∈ prev, t.id ≠ id) → deleteTransaction id prev = prev) := by
  refine ⟨List.filter_sublist prev, fun t => ?_, fun t ht => ?_, fun t ht => ?_, fun h => ?_⟩
  · simp [deleteTransaction, List.mem_filter]
  · rw [List.count_eq_zero]
    simp [deleteTransaction, List.mem_filter, ht]
  · exact List.count_filter (by simp [ht])
  · rw [deleteTransaction, List.filter_eq_self]
    intro t ht
    simp [h t ht]

/-- Witness for deleteTransaction_correct: deleting an absent id from a
concrete singleton collection leaves it unchanged. -/
theorem deleteTransaction_correct_witness :
    deleteTransaction "x" [⟨"a", .income, .rental, 10, ⟨2024, 2, 1⟩, "", none, true⟩]
      = [⟨"a", .income, .rental, 10, ⟨2024, 2, 1⟩, "", none, true⟩] :=
  (deleteTransaction_correct "x"
    [⟨"a", .income, .rental, 10, ⟨2024, 2, 1⟩, "", none, true⟩]).2.2.2.2 (by simp)

/-- C9: the add operation rejects a missing amount and a non-positive
amount without touching the collection, and both add and delete
preserve the invariant that every stored amount is positive. -/
theorem addTransaction_validates (f : TxForm) (newId : String) (id : String)
    (prev : List Transaction) :
    (f.amount = none → handleAddTransaction f newId prev = prev)
      ∧ (∀ q, f.amount = some q → q ≤ 0 → handleAddTransaction f newId prev = prev)
      ∧ ((∀ t ∈ prev, 0 < t.amount) →
          ∀ t ∈ handleAddTransaction f newId prev, 0 < t.amount)
      ∧ ((∀ t ∈ prev, 0 < t.amount) →
          ∀ t ∈ deleteTransaction id prev, 0 < t.amount) := by
  refine ⟨fun h => by simp [handleAddTransaction, h], fun q hq hle => ?_, fun hinv t ht => ?_,
    fun hinv t ht => ?_⟩
  · simp [handleAddTransaction, hq, hle]
  · rcases hf : f.amount with _ | q
    · simp only [handleAddTransaction, hf] at ht
      exact hinv t ht
    · simp only [handleAddTransaction, hf] at ht
      by_cases hle : q ≤ 0
      · rw [if_pos hle] at ht
        exact hinv t ht
      · rw [if_neg hle] at ht
        rcases List.mem_cons.mp ht with h | h
        · rw [h]
          exact lt_of_not_le hle
        · exact hinv t h
  · exact hinv t (List.mem_of_mem_filter ht)

/-- The timestamp encoding is injective on valid calendar dates. -/
theorem getTime_inj {d1 d2 : JSDate} (h1 : ValidDate d1) (h2 : ValidDate d2)
    (h : d1.getTime = d2.getTime) : d1 = d2 := by
  obtain ⟨hm1, hd1⟩ := h1
  obtain ⟨hm2, hd2⟩ := h2
  cases d1
  cases d2
  simp only [JSDate.getTime] at h hm1 hd1 hm2 hd2
  simp only [JSDate.mk.injEq]
  omega

/-- recordSet on an absent key appends the pair at the end. -/
theorem recordSet_notMem (rec : List (String × ℚ)) (k : String) (v : ℚ)
    (h : ∀ p ∈ rec, p.1 ≠ k) : recordSet rec k v = rec ++ [(k, v)] := by
  induction rec with
  | nil => rfl
  | cons p rest ih =>
      obtain ⟨k', v'⟩ := p
      have hk : k' ≠ k := h (k', v') (List.mem_cons_self _ _)
      simp only [recordSet, if_neg hk, List.cons_append, List.cons.injEq, true_and]
      exact ih (fun p hp => h p (List.mem_cons_of_mem _ hp))

/-- recordSet overwrites the value of the final entry when its key occurs
only there. -/
theorem recordSet_last (rec : List (String × ℚ)) (k : String) (v0 v : ℚ)
    (h : ∀ p ∈ rec, p.1 ≠ k) :
    recordSet (rec ++ [(k, v0)]) k v = rec ++ [(k, v)] := by
  induction rec with
  | nil => simp [recordSet]
  | cons p rest ih =>
      obtain ⟨k', v'⟩ := p
      have hk : k' ≠ k := h (k', v') (List.mem_cons_self _ _)
      simp only [List.cons_append, recordSet, if_neg hk, List.cons.injEq, true_and]
      exact ih (fun p hp => h p (List.mem_cons_of_mem _ hp))

/-- Membership through the first-occurrence fold. -/
theorem dedupFirst_mem_aux (l : List JSDate) (acc : List JSDate) (x : JSDate) :
    x ∈ l.foldl (fun acc d => if d ∈ acc then acc else acc ++ [d]) acc ↔
      x ∈ acc ∨ x ∈ l := by
  induction l generalizing acc with
  | nil => simp
  | cons d ds ih =>
      rw [List.foldl_cons, ih]
      by_cases hd : d ∈ acc
      · rw [if_pos hd]
        simp only [List.mem_cons]
        constructor
        · rintro (h | h)
          · exact Or.inl h
          · exact Or.inr (Or.inr h)
        · rintro (h | h | h)
          · exact Or.inl h
          · exact Or.inl (h ▸ hd)
          · exact Or.inr h
      · rw [if_neg hd]
        simp only [List.mem_append, List.mem_singleton, List.mem_cons]
        tauto

/-- dedupFirst keeps exactly the members of its input. -/
theorem dedupFirst_mem (l : List JSDate) (x : JSDate) :
    x ∈ dedupFirst l ↔ x ∈ l := by
  rw [dedupFirst, dedupFirst_mem_aux]
  simp

/-- The first-occurrence fold never duplicates an accumulator without
duplicates. -/
theorem dedupFirst_nodup_aux (l : List JSDate) (acc : List JSDate) (h : acc.Nodup) :
    (l.foldl (fun acc d => if d ∈ acc then acc else acc ++ [d]) acc).Nodup := by
  induction l generalizing acc with
  | nil => simpa
  | cons d ds ih =>
      rw [List.foldl_cons]
      by_cases hd : d ∈ acc
      · rw [if_pos hd]
        exact ih acc h
      · rw [if_neg hd]
        exact ih (acc ++ [d]) (by simp [List.nodup_append, h, hd])

/-- dedupFirst produces a duplicate-free list. -/
theorem dedupFirst_nodup (l : List JSDate) : (dedupFirst l).Nodup :=
  dedupFirst_nodup_aux l [] List.nodup_nil

/-- The first-occurrence fold appends a subsequence of its input. -/
theorem dedupFirst_sublist_aux (l : List JSDate) :
    ∀ acc : List JSDate, ∃ rest,
      l.foldl (fun acc d => if d ∈ acc then acc else acc ++ [d]) acc = acc ++ rest ∧
        rest.Sublist l := by
  induction l with
  | nil => exact fun acc => ⟨[], by simp, List.nil_sublist []⟩
  | cons d ds ih =>
      intro acc
      rw [List.foldl_cons]
      by_cases hd : d ∈ acc
      · rw [if_pos hd]
        obtain ⟨rest, heq, hsub⟩ := ih acc
        exact ⟨rest, heq, hsub.cons d⟩
      · rw [if_neg hd]
        obtain ⟨rest, heq, hsub⟩ := ih (acc ++ [d])
        refine ⟨d :: rest, ?_, hsub.cons₂ d⟩
        rw [heq, List.append_assoc]
        rfl

/-- dedupFirst is a subsequence of its input. -/
theorem dedupFirst_sublist (l : List JSDate) : (dedupFirst l).Sublist l := by
  obtain ⟨rest, heq, hsub⟩ := dedupFirst_sublist_aux l []
  rw [dedupFirst, heq]
  simpa using hsub

/-- Appending one date to the input of dedupFirst appends it to the
output exactly when it is new. -/
theorem dedupFirst_concat (l : List JSDate) (d : JSDate) :
    dedupFirst (l ++ [d]) =
      if d ∈ l then dedupFirst l else dedupFirst l ++ [d] := by
  rw [dedupFirst, List.foldl_append]
  simp only [List.foldl_cons, List.foldl_nil]
  rw [show List.foldl (fun acc d => if d ∈ acc then acc else acc ++ [d]) [] l = dedupFirst l
    from rfl]
  by_cases hd : d ∈ l
  · rw [if_pos ((dedupFirst_mem l d).mpr hd), if_pos hd]
  · rw [if_neg (fun hc => hd ((dedupFirst_mem l d).mp hc)), if_neg hd]

/-- Over a chronologically sorted list of valid dates, the distinct dates
are strictly increasing. -/
theorem dedupFirst_pairwise_lt (ds : List JSDate)
    (hsorted : ds.Pairwise (fun a b => a.getTime ≤ b.getTime))
    (hvalid : ∀ d ∈ ds, ValidDate d) :
    (dedupFirst ds).Pairwise (fun a b => a.getTime < b.getTime) := by
  have hle := hsorted.sublist (dedupFirst_sublist ds)
  have hnd : (dedupFirst ds).Nodup := dedupFirst_nodup ds
  refine (hle.and hnd).imp_of_mem ?_
  intro a b ha hb hab
  have hva := hvalid a ((dedupFirst_mem ds a).mp ha)
  have hvb := hvalid b ((dedupFirst_mem ds b).mp hb)
  exact lt_of_le_of_ne hab.1 (fun he => hab.2 (getTime_inj hva hvb he))

/-- Signed totals add over a final element. -/
theorem totalSigned_append (l : List Transaction) (t : Transaction) :
    totalSigned (l ++ [t]) = totalSigned l + signed t := by
  simp [totalSigned]

/-- The signed total splits into the income total minus the expense
total. -/
theorem totalSigned_split (l : List Transaction) :
    totalSigned l
      = ((l.filter (fun t => t.type == TransactionType.income)).map (·.amount)).sum
        - ((l.filter (fun t => t.type == TransactionType.expense)).map (·.amount)).sum := by
  induction l with
  | nil => simp [totalSigned]
  | cons t ts ih =>
      rcases ht : t.type with _ | _
      · simp only [totalSigned, List.map_cons, List.sum_cons, signed, ht, List.filter_cons,
          beq_self_eq_true, if_true,
          show (TransactionType.income == TransactionType.expense) = false from rfl,
          Bool.false_eq_true, if_false]
        rw [show (ts.map signed).sum = totalSigned ts from rfl, ih]
        ring
      · simp only [totalSigned, List.map_cons, List.sum_cons, signed, ht, List.filter_cons,
          beq_self_eq_true, if_true,
          show (TransactionType.expense == TransactionType.income) = false from rfl,
          Bool.false_eq_true, if_false]
        rw [show (ts.map signed).sum = totalSigned ts from rfl, ih]
        ring

/-- The signed total is the summary balance. -/
theorem totalSigned_eq_balance (l : List Transaction) :
    totalSigned l = (summary l).balance := by
  rw [totalSigned_split]
  simp [summary, foldl_add_eq_sum]

/-- The signed total is invariant under the ascending sort. -/
theorem totalSigned_sort (l : List Transaction) :
    totalSigned (l.insertionSort dateAsc) = totalSigned l :=
  ((List.perm_insertionSort dateAsc l).map signed).sum_eq

/-- Running balances add the new final element exactly for keys at or
after its date. -/
theorem runningAt_append (l : List Transaction) (t : Transaction) (d : JSDate) :
    runningAt (l ++ [t]) d
      = runningAt l d + if t.date.getTime ≤ d.getTime then signed t else 0 := by
  by_cases h : t.date.getTime ≤ d.getTime
  · simp [runningAt, List.filter_append, h]
  · simp [runningAt, List.filter_append, h]

/-- Running balances are invariant under the ascending sort. -/
theorem runningAt_sort (l : List Transaction) (d : JSDate) :
    runningAt (l.insertionSort dateAsc) d = runningAt l d :=
  ((((List.perm_insertionSort dateAsc l)).filter _).map signed).sum_eq

/-- At a date bounding the whole list the running balance is the total. -/
theorem runningAt_total (ls : List Transaction) (dmax : JSDate)
    (hmax : ∀ t ∈ ls, t.date.getTime ≤ dmax.getTime) :
    runningAt ls dmax = totalSigned ls := by
  rw [runningAt, List.filter_eq_self.mpr, totalSigned]
  intro t ht
  exact decide_eq_true (hmax t ht)

/-- Closed form of the balance fold over a chronologically sorted list
of valid dates whose day-month labels identify the dates: the points
record is the reference series and the running balance is the signed
total. -/
theorem balFold_eq (ls : List Transaction) :
    List.Sorted dateAsc ls →
    (∀ t ∈ ls, ValidDate t.date) →
    (∀ t1 ∈ ls, ∀ t2 ∈ ls, dateLabel t1.date = dateLabel t2.date → t1.date = t2.date) →
    balFold ls = (seriesOf ls, totalSigned ls) := by
  induction ls using List.reverseRecOn with
  | nil => intro _ _ _; rfl
  | append_singleton l t ih =>
      intro hsort hval hinj
      have hdec := List.pairwise_append.mp hsort
      have hsort' : List.Sorted dateAsc l := hdec.1
      have hbound : ∀ x ∈ l, x.date.getTime ≤ t.date.getTime := by
        intro x hx
        exact hdec.2.2 x hx t (List.mem_singleton_self t)
      have hval' : ∀ x ∈ l, ValidDate x.date :=
        fun x hx => hval x (List.mem_append_left _ hx)
      have hinj' : ∀ t1 ∈ l, ∀ t2 ∈ l,
          dateLabel t1.date = dateLabel t2.date → t1.date = t2.date :=
        fun t1 h1 t2 h2 =>
          hinj t1 (List.mem_append_left _ h1) t2 (List.mem_append_left _ h2)
      have ihres := ih hsort' hval' hinj'
      have hmax_all : ∀ x ∈ l ++ [t], x.date.getTime ≤ t.date.getTime := by
        intro x hx
        rcases List.mem_append.mp hx with h | h
        · exact hbound x h
        · rw [List.mem_singleton.mp h]
      have hfold : balFold (l ++ [t])
          = (recordSet (seriesOf l) (dateLabel t.date) (totalSigned l + signed t),
             totalSigned l + signed t) := by
        have hstep : balFold (l ++ [t])
            = (recordSet (balFold l).1 (dateLabel t.date) ((balFold l).2 + signed t),
               (balFold l).2 + signed t) := by
          simp only [balFold, List.foldl_append, List.foldl_cons, List.foldl_nil]
        rw [hstep, ihres]
      have hmapd : (l ++ [t]).map (·.date) = l.map (·.date) ++ [t.date] := by
        simp
      suffices hser : recordSet (seriesOf l) (dateLabel t.date) (totalSigned l + signed t)
          = seriesOf (l ++ [t]) by
        rw [hfold, totalSigned_append, hser]
      by_cases hmem : t.date ∈ l.map (·.date)
      · have htd_mem : t.date ∈ dedupFirst (l.map (·.date)) := (dedupFirst_mem _ _).mpr hmem
        obtain ⟨p, q, hpq⟩ := List.append_of_mem htd_mem
        have hpw : (dedupFirst (l.map (·.date))).Pairwise
            (fun a b => a.getTime < b.getTime) := by
          apply dedupFirst_pairwise_lt
          · exact List.pairwise_map.mpr hsort'
          · intro d hd
            obtain ⟨x, hx, hxd⟩ := List.mem_map.mp hd
            exact hxd ▸ hval' x hx
        have hq : q = [] := by
          cases q with
          | nil => rfl
          | cons x q' =>
              exfalso
              rw [hpq] at hpw
              have hlt : t.date.getTime < x.getTime :=
                List.rel_of_pairwise_cons (List.pairwise_append.mp hpw).2.1
                  (List.mem_cons_self x q')
              have hx_mem : x ∈ l.map (·.date) := by
                rw [← dedupFirst_mem (l.map (·.date)) x, hpq]
                simp
              obtain ⟨t1, ht1, ht1d⟩ := List.mem_map.mp hx_mem
              have hb := hbound t1 ht1
              rw [ht1d] at hb
              omega
        subst hq
        have hnp : t.date ∉ p := by
          have hnd := dedupFirst_nodup (l.map (·.date))
          rw [hpq] at hnd
          exact fun hc =>
            (List.nodup_append.mp hnd).2.2 hc (List.mem_singleton_self _)
        have hkeys : ∀ pr ∈ p.map (fun d => (dateLabel d, runningAt l d)),
            pr.1 ≠ dateLabel t.date := by
          intro pr hpr
          obtain ⟨d, hd, hdpr⟩ := List.mem_map.mp hpr
          rw [← hdpr]
          intro hlab
          have hd_dates : d ∈ l.map (·.date) := by
            rw [← dedupFirst_mem (l.map (·.date)) d, hpq]
            exact List.mem_append_left _ hd
          obtain ⟨t1, ht1, ht1d⟩ := List.mem_map.mp hd_dates
          have heq : t1.date = t.date :=
            hinj t1 (List.mem_append_left _ ht1) t
              (List.mem_append_right _ (List.mem_singleton_self t))
              (by rw [ht1d]; exact hlab)
          have hdt : d = t.date := by rw [← ht1d, heq]
          exact hnp (hdt ▸ hd)
        have hserl : seriesOf l
            = p.map (fun d => (dateLabel d, runningAt l d))
              ++ [(dateLabel t.date, runningAt l t.date)] := by
          simp only [seriesOf]
          rw [hpq, List.map_append, List.map_singleton]
        rw [hserl, recordSet_last _ _ _ _ hkeys]
        simp only [seriesOf]
        rw [hmapd, dedupFirst_concat, if_pos hmem, hpq, List.map_append, List.map_singleton]
        congr 1
        · apply List.map_congr_left
          intro d hd
          have hdlt : d.getTime < t.date.getTime := by
            rw [hpq] at hpw
            exact (List.pairwise_append.mp hpw).2.2 d hd t.date (List.mem_singleton_self _)
          rw [runningAt_append, if_neg (by omega), add_zero]
        · rw [runningAt_total (l ++ [t]) t.date hmax_all, totalSigned_append]
      · have hkeys : ∀ pr ∈ seriesOf l, pr.1 ≠ dateLabel t.date := by
          intro pr hpr
          simp only [seriesOf] at hpr
          obtain ⟨d, hd, hdpr⟩ := List.mem_map.mp hpr
          rw [← hdpr]
          intro hlab
          have hd_dates : d ∈ l.map (·.date) := (dedupFirst_mem _ _).mp hd
          obtain ⟨t1, ht1, ht1d⟩ := List.mem_map.mp hd_dates
          have heq : t1.date = t.date :=
            hinj t1 (List.mem_append_left _ ht1) t
              (List.mem_append_right _ (List.mem_singleton_self t))
              (by rw [ht1d]; exact hlab)
          apply hmem
          rw [← heq]
          exact List.mem_map_of_mem _ ht1
        rw [recordSet_notMem _ _ _ hkeys]
        simp only [seriesOf]
        rw [hmapd, dedupFirst_concat, if_neg hmem, List.map_append, List.map_singleton]
        congr 1
        · apply List.map_congr_left
          intro d hd
          have hd_dates : d ∈ l.map (·.date) := (dedupFirst_mem _ _).mp hd
          obtain ⟨t1, ht1, ht1d⟩ := List.mem_map.mp hd_dates
          have hle' : d.getTime ≤ t.date.getTime := ht1d ▸ hbound t1 ht1
          have hne : d.getTime ≠ t.date.getTime := by
            intro he
            apply hmem
            have hdt : d = t.date :=
              getTime_inj (ht1d ▸ hval' t1 ht1)
                (hval t (List.mem_append_right _ (List.mem_singleton_self t))) he
            rw [← hdt]
            exact hd_dates
          rw [runningAt_append, if_neg (by omega), add_zero]
        · rw [runningAt_total (l ++ [t]) t.date hmax_all, totalSigned_append]

/-- C2 (amended): provided every date of the filtered set is a valid
calendar date and distinct dates of the set carry distinct day-month
labels (as is the case whenever all transactions lie in one calendar
year), the balance evolution series is exactly one point per distinct
date present in the set, in chronological order, each point carrying
the running sum of signed amounts up to and including its date, and
its final point carries the summary balance of the same set. -/
theorem balanceEvolution_amended (l : List Transaction)
    (hval : ∀ t ∈ l, ValidDate t.date)
    (hinj : ∀ t1 ∈ l, ∀ t2 ∈ l,
      dateLabel t1.date = dateLabel t2.date → t1.date = t2.date) :
    balancePoints l
        = (dedupFirst (sortedDates l)).map (fun d => (dateLabel d, runningAt l d))
      ∧ (dedupFirst (sortedDates l)).Nodup
      ∧ (∀ d, d ∈ dedupFirst (sortedDates l) ↔ ∃ t ∈ l, t.date = d)
      ∧ (dedupFirst (sortedDates l)).Pairwise (fun a b => a.getTime < b.getTime)
      ∧ (l ≠ [] → ∃ k, (balancePoints l).getLast? = some (k, (summary l).balance)) := by
  have hs : List.Sorted dateAsc (l.insertionSort dateAsc) :=
    List.sorted_insertionSort dateAsc l
  have hvs : ∀ t ∈ l.insertionSort dateAsc, ValidDate t.date :=
    fun t ht => hval t ((List.mem_insertionSort dateAsc).mp ht)
  have his : ∀ t1 ∈ l.insertionSort dateAsc, ∀ t2 ∈ l.insertionSort dateAsc,
      dateLabel t1.date = dateLabel t2.date → t1.date = t2.date :=
    fun t1 h1 t2 h2 =>
      hinj t1 ((List.mem_insertionSort dateAsc).mp h1) t2 ((List.mem_insertionSort dateAsc).mp h2)
  have hmain := balFold_eq (l.insertionSort dateAsc) hs hvs his
  have hclosed : balancePoints l = seriesOf (l.insertionSort dateAsc) := by
    rw [balancePoints, hmain]
  have hpoints : balancePoints l
      = (dedupFirst (sortedDates l)).map (fun d => (dateLabel d, runningAt l d)) := by
    rw [hclosed]
    simp only [seriesOf, sortedDates]
    apply List.map_congr_left
    intro d _
    rw [runningAt_sort]
  have hdatesle : (sortedDates l).Pairwise (fun a b => a.getTime ≤ b.getTime) :=
    List.pairwise_map.mpr hs
  have hdatesval : ∀ d ∈ sortedDates l, ValidDate d := by
    intro d hd
    obtain ⟨x, hx, hxd⟩ := List.mem_map.mp hd
    exact hxd ▸ hvs x hx
  have hplt := dedupFirst_pairwise_lt _ hdatesle hdatesval
  refine ⟨hpoints, dedupFirst_nodup _, ?_, hplt, ?_⟩
  · intro d
    rw [dedupFirst_mem]
    simp only [sortedDates, List.mem_map, List.mem_insertionSort]
  · intro hne
    have hlsne : l.insertionSort dateAsc ≠ [] := by
      intro hc
      apply hne
      have hlen := congrArg List.length hc
      rw [List.length_insertionSort] at hlen
      exact List.length_eq_zero.mp hlen
    obtain ⟨t0, ht0⟩ := List.exists_mem_of_ne_nil _ hlsne
    have hD_ne : dedupFirst (sortedDates l) ≠ [] :=
      List.ne_nil_of_mem ((dedupFirst_mem _ _).mpr (List.mem_map_of_mem _ ht0))
    obtain ⟨D', dlast, hD'⟩ : ∃ D' dlast, dedupFirst (sortedDates l) = D' ++ [dlast] :=
      ⟨_, _, (List.dropLast_append_getLast hD_ne).symm⟩
    have hplt' : (D' ++ [dlast]).Pairwise (fun a b => a.getTime < b.getTime) :=
      hD' ▸ hplt
    have hmax : ∀ x ∈ l.insertionSort dateAsc, x.date.getTime ≤ dlast.getTime := by
      intro x hx
      have hxd : x.date ∈ D' ++ [dlast] := by
        rw [← hD', dedupFirst_mem]
        exact List.mem_map_of_mem _ hx
      rcases List.mem_append.mp hxd with h | h
      · exact le_of_lt
          ((List.pairwise_append.mp hplt').2.2 x.date h dlast (List.mem_singleton_self _))
      · rw [List.mem_singleton.mp h]
    have hrun : runningAt l dlast = (summary l).balance := by
      rw [← runningAt_sort, runningAt_total _ _ hmax, totalSigned_sort, totalSigned_eq_balance]
    refine ⟨dateLabel dlast, ?_⟩
    rw [hpoints, hD', List.map_append, List.map_singleton, List.getLast?_concat, hrun]

/-- Counterexample to C2 as stated: with two income transactions dated
2023-05-01 and 2024-05-01 and the all-time filter, the filtered set
holds two distinct dates, yet the balance evolution series has a single
point, because the per-day key dd/mm carries no year and the two dates
collapse onto the key 01/05. -/
theorem balanceEvolution_counterexample :
    ((⟨2023, 4, 1⟩ : JSDate) ≠ (⟨2024, 4, 1⟩ : JSDate))
      ∧ (dedupFirst (sortedDates (filteredTransactions .all ⟨2024, 4, 15⟩
          [⟨"a", .income, .rental, 10, ⟨2023, 4, 1⟩, "", none, true⟩,
           ⟨"b", .income, .rental, 20, ⟨2024, 4, 1⟩, "", none, true⟩]))).length = 2
      ∧ (balancePoints (filteredTransactions .all ⟨2024, 4, 15⟩
          [⟨"a", .income, .rental, 10, ⟨2023, 4, 1⟩, "", none, true⟩,
           ⟨"b", .income, .rental, 20, ⟨2024, 4, 1⟩, "", none, true⟩])).length = 1 := by
  refine ⟨by decide, by decide, by decide⟩

/-- Witness for balanceEvolution_amended at a concrete one-year set:
the distinct dates are duplicate-free and the final point carries the
summary balance. -/
theorem balanceEvolution_amended_witness :
    (dedupFirst (sortedDates
        [⟨"a", .income, .rental, 10, ⟨2024, 2, 1⟩, "", none, true⟩,
         ⟨"b", .expense, .cleaning, 4, ⟨2024, 2, 15⟩, "", none, true⟩])).Nodup
      ∧ ∃ k, (balancePoints
          [⟨"a", .income, .rental, 10, ⟨2024, 2, 1⟩, "", none, true⟩,
           ⟨"b", .expense, .cleaning, 4, ⟨2024, 2, 15⟩, "", none, true⟩]).getLast?
        = some (k, (summary
          [⟨"a", .income, .rental, 10, ⟨2024, 2, 1⟩, "", none, true⟩,
           ⟨"b", .expense, .cleaning, 4, ⟨2024, 2, 15⟩, "", none, true⟩]).balance) :=
  ⟨(balanceEvolution_amended
      [⟨"a", .income, .rental, 10, ⟨2024, 2, 1⟩, "", none, true⟩,
       ⟨"b", .expense, .cleaning, 4, ⟨2024, 2, 15⟩, "", none, true⟩]
      (by decide) (by decide)).2.1,
   (balanceEvolution_amended
      [⟨"a", .income, .rental, 10, ⟨2024, 2, 1⟩, "", none, true⟩,
       ⟨"b", .expense, .cleaning, 4, ⟨2024, 2, 15⟩, "", none, true⟩]
      (by decide) (by decide)).2.2.2.2 (by decide)⟩

/-- C6: topExpenses is a prefix of the full category breakdown sorted
descending by summed value, of length at most 3, and chartData is that
same breakdown without the percentage component. -/
theorem topExpenses_correct (l : List Transaction) :
    topExpenses l <+: categoryBreakdown l
      ∧ (topExpenses l).length ≤ 3
      ∧ List.Sorted valueDesc (categoryBreakdown l)
      ∧ chartData l = (categoryBreakdown l).map (fun e => ⟨e.name, e.value⟩) := by
  refine ⟨⟨(categoryBreakdown l).drop 3, List.take_append_drop 3 _⟩,
    List.length_take_le 3 _, List.sorted_insertionSort valueDesc _, ?_⟩
  unfold chartData categoryBreakdown
  rw [List.map_insertionSort valueDesc chartValueDesc
    (fun e => ChartEntry.mk e.name e.value) _ (fun a _ b _ => Iff.rfl), List.map_map]
  rfl

/-- Summing the second components after a recordAdd adds the new amount. -/
theorem recordAdd_sum (rec : List (Category × ℚ)) (c : Category) (a : ℚ) :
    ((recordAdd rec c a).map (·.2)).sum = (rec.map (·.2)).sum + a := by
  induction rec with
  | nil => simp [recordAdd]
  | cons p rest ih =>
      by_cases h : p.1 = c
      · simp [recordAdd, h, add_assoc, add_comm a]
      · simp [recordAdd, h, ih, add_assoc]

/-- The grouping preserves the total of the grouped amounts. -/
theorem group_fold_sum (l : List Transaction) (rec : List (Category × ℚ)) :
    ((l.foldl (fun rec t => recordAdd rec t.category t.amount) rec).map (·.2)).sum
      = (rec.map (·.2)).sum + (l.map (·.amount)).sum := by
  induction l generalizing rec with
  | nil => simp
  | cons t ts ih => simp [ih, recordAdd_sum, add_assoc]

/-- Distributing a common division and factor out of a mapped sum. -/
theorem sum_map_div_mul {α : Type} (f : α → ℚ) (E : ℚ) (l : List α) :
    (l.map (fun x => f x / E * 100)).sum = (l.map f).sum / E * 100 := by
  induction l with
  | nil => simp
  | cons x xs ih => simp [ih, add_div, add_mul]

/-- The summed values of the category grouping are exactly the total
expenses of the summary. -/
theorem group_sum_eq_expenses (l : List Transaction) :
    ((groupExpensesByCategory l).map (·.2)).sum = (summary l).expenses := by
  rw [groupExpensesByCategory, group_fold_sum]
  simp [summary, foldl_add_eq_sum]

/-- C7: when total expenses are positive the breakdown percentages sum
to exactly 100, and when total expenses are zero every percentage is 0. -/
theorem breakdown_percent_sum (l : List Transaction) :
    (0 < (summary l).expenses → ((categoryBreakdown l).map (·.percent)).sum = 100)
      ∧ ((summary l).expenses = 0 → ∀ e ∈ categoryBreakdown l, e.percent = 0) := by
  constructor
  · intro hE
    have hperm : ((categoryBreakdown l).map (·.percent)).Perm
        (((groupExpensesByCategory l).map
          (fun p => (⟨p.1, p.2,
            if (summary l).expenses > 0 then p.2 / (summary l).expenses * 100 else 0⟩ :
              BreakdownEntry))).map (·.percent)) :=
      (List.perm_insertionSort valueDesc _).map _
    rw [hperm.sum_eq, List.map_map]
    simp only [Function.comp_def, gt_iff_lt, hE, if_true]
    rw [sum_map_div_mul (·.2) (summary l).expenses (groupExpensesByCategory l),
      group_sum_eq_expenses, div_self (ne_of_gt hE)]
    norm_num
  · intro hE e he
    have he' : e ∈ (groupExpensesByCategory l).map
        (fun p => (⟨p.1, p.2,
          if (summary l).expenses > 0 then p.2 / (summary l).expenses * 100 else 0⟩ :
            BreakdownEntry)) := (List.mem_insertionSort valueDesc).mp he
    rcases List.mem_map.mp he' with ⟨p, _, hp⟩
    rw [← hp]
    simp [hE]

/-- Witness for breakdown_percent_sum: a concrete single-expense set
whose breakdown percentages sum to 100. -/
theorem breakdown_percent_sum_witness :
    ((categoryBreakdown [⟨"e", .expense, .cleaning, 50, ⟨2024, 2, 5⟩, "", none, true⟩]).map
      (·.percent)).sum = 100 :=
  (breakdown_percent_sum [⟨"e", .expense, .cleaning, 50, ⟨2024, 2, 5⟩, "", none, true⟩]).1
    (by norm_num [summary, List.filter])

/-- C4: getFinancialInsights is total over every service behaviour and
matches the error contract: an empty transaction list yields the fixed
insufficient-data message with no network call, a failure whose message
contains 429 yields the fixed overloaded message, any other failure
yields the message embedding the error description, and a success is
returned verbatim. -/
theorem getFinancialInsights_correct (txs : List Transaction) (period : String)
    (svc : ServiceOutcome) :
    (txs = [] → getFinancialInsights txs period svc = ⟨insufficientDataMsg, false⟩)
      ∧ (txs ≠ [] → ∀ e, svc = .failed e → errorHas429 e = true →
          getFinancialInsights txs period svc = ⟨overloadedMsg, true⟩)
      ∧ (txs ≠ [] → ∀ e, svc = .failed e → errorHas429 e = false →
          getFinancialInsights txs period svc = ⟨unavailableMsg e, true⟩)
      ∧ (txs ≠ [] → ∀ t, svc = .ok t → getFinancialInsights txs period svc = ⟨t, true⟩) := by
  refine ⟨fun h => by simp [getFinancialInsights, h], fun hne e hsvc h429 => ?_,
    fun hne e hsvc h429 => ?_, fun hne t hsvc => ?_⟩
  · simp [getFinancialInsights, hsvc, h429, List.length_eq_zero, hne]
  · simp [getFinancialInsights, hsvc, h429, List.length_eq_zero, hne]
  · simp [getFinancialInsights, hsvc, List.length_eq_zero, hne]

/-- Witness for getFinancialInsights_correct: the empty set short-circuits
without a network call, and a concrete rate-limited failure on a nonempty
set yields the fixed overloaded message. -/
theorem getFinancialInsights_correct_witness :
    getFinancialInsights [] "Todo o Período" (.failed ⟨some "fetch failed"⟩)
        = ⟨insufficientDataMsg, false⟩
      ∧ getFinancialInsights [⟨"a", .income, .rental, 10, ⟨2024, 2, 1⟩, "", none, true⟩]
          "Mês Atual" (.failed ⟨some "got status 429 from upstream"⟩)
        = ⟨overloadedMsg, true⟩ :=
  ⟨(getFinancialInsights_correct [] "Todo o Período" (.failed ⟨some "fetch failed"⟩)).1 rfl,
   (getFinancialInsights_correct [⟨"a", .income, .rental, 10, ⟨2024, 2, 1⟩, "", none, true⟩]
      "Mês Atual" (.failed ⟨some "got status 429 from upstream"⟩)).2.1 (by simp) _ rfl (by decide)⟩

/-- C5 shows a divergence from the specification: the startup read has no
recovery around JSON.parse, so a malformed stored value propagates the
parse error instead of yielding the empty collection; only the missing
key and the empty string fall back to the empty collection. -/
theorem loadTransactions_propagates_parse_error
    (parse : String → Except String (List Transaction)) (s e : String)
    (hs : s ≠ "") (hp : parse s = .error e) :
    loadTransactions parse (some s) = .error e
      ∧ loadTransactions parse none = Except.ok [] := by
  constructor
  · simp [loadTransactions, hs, hp]
  · rfl

/-- Witness for loadTransactions_propagates_parse_error: a concrete
malformed stored value whose parse error reaches the caller. -/
theorem loadTransactions_propagates_parse_error_witness :
    loadTransactions (fun _ => .error "SyntaxError") (some "not json") = .error "SyntaxError"
      ∧ loadTransactions (fun _ => .error "SyntaxError") none = Except.ok [] :=
  loadTransactions_propagates_parse_error (fun _ => .error "SyntaxError") "not json"
    "SyntaxError" (by simp) rfl

/-- Witness for addTransaction_validates: a rejected empty amount and
the preserved invariant on a concrete accepted insertion. -/
theorem addTransaction_validates_witness :
    handleAddTransaction ⟨none, .expense, .cleaning, ⟨2024, 0, 1⟩, "", ""⟩ "id1" [] = []
      ∧ ∀ t ∈ handleAddTransaction ⟨some 5, .income, .rental, ⟨2024, 0, 1⟩, "", "g"⟩ "id2" [],
          0 < t.amount :=
  ⟨(addTransaction_validates ⟨none, .expense, .cleaning, ⟨2024, 0, 1⟩, "", ""⟩ "id1" "z" []).1 rfl,
   (addTransaction_validates ⟨some 5, .income, .rental, ⟨2024, 0, 1⟩, "", "g"⟩ "id2" "z" []).2.2.1
     (by simp)⟩

end PortoFinanca
